import Mathlib

/-!
Verification of the browser-history organizer (`popup.js`, `constants.js`).

The JavaScript source is shallowly embedded: JS `Map`s keyed by strings become
association lists with first-occurrence update semantics (JS `Map` preserves
insertion order and `set` on an existing key keeps its position), JS `Set`s
become duplicate-free string lists, and the stable `Array.prototype.sort`
becomes a stable insertion sort.  Fallible steps (`Map.get` on a possibly
missing key inside `organizeHistory`, the thrown errors caught by
`loadHistory`'s try/catch) are modelled with `Option` / `Except`.
-/

namespace BrowserHistory

/-- Lookup in an association list, mirroring `Map.get` in `popup.js`. -/

def lookupKey {α : Type} : List (String × α) → String → Option α
  | [], _ => none
  | p :: rest, k => if p.1 = k then some p.2 else lookupKey rest k

/-- `Map.set` semantics: replace the (unique) entry holding the key in place,
otherwise append the new entry at the end, as JS `Map` insertion order does. -/

def mapSet {α : Type} : List (String × α) → String → α → List (String × α)
  | [], k, v => [(k, v)]
  | p :: rest, k, v => if p.1 = k then (k, v) :: rest else p :: mapSet rest k v

/-- Update the value at a key in place (used for pushing an item into an
existing group); the key is assumed present, callers check with `lookupKey`. -/

def mapAdjust {α : Type} (f : α → α) : List (String × α) → String → List (String × α)
  | [], _ => []
  | p :: rest, k => if p.1 = k then (p.1, f p.2) :: rest else p :: mapAdjust f rest k

/-- `Map.delete` semantics: remove the (unique) entry holding the key. -/

def eraseKey {α : Type} : List (String × α) → String → List (String × α)
  | [], _ => []
  | p :: rest, k => if p.1 = k then rest else p :: eraseKey rest k

/-- JS `Set.has` on a list-of-strings model of a set. -/

def setHas (l : List String) (u : String) : Bool :=
  l.any (fun x => x = u)

/-- JS `Set.add`: append only when absent, preserving insertion order. -/

def setAdd (l : List String) (u : String) : List String :=
  if setHas l u then l else l ++ [u]

/-- Stable insertion step: `a` is placed before the first element `b`
with `le a b`; equal elements therefore keep their original order. -/

def insertBy {α : Type} (le : α → α → Bool) (a : α) : List α → List α
  | [] => [a]
  | b :: l => if le a b then a :: b :: l else b :: insertBy le a l

/-- Stable insertion sort, the model of JS `Array.prototype.sort` (which the
ECMAScript specification requires to be stable). -/

def sortBy {α : Type} (le : α → α → Bool) : List α → List α
  | [] => []
  | a :: l => insertBy le a (sortBy le l)

/-- Character-wise lowercasing, the model of JS `toLowerCase()` on the ASCII
hostnames and patterns this extension handles. -/

def strToLower (s : String) : String := ⟨s.data.map Char.toLower⟩

/-- JS `String.prototype.includes`: substring containment. -/

def strIncludes (s sub : List Char) : Bool :=
  match s with
  | [] => sub.isEmpty
  | _ :: rest => List.isPrefixOf sub s || strIncludes rest sub

/-- One pattern test from `organizeHistory`:
`domain.includes(pattern.toLowerCase())`. -/

def matchesPattern (domain pattern : String) : Bool :=
  strIncludes domain.data (strToLower pattern).data

/-- A group definition as stored in settings (`constants.js` `DEFAULT_GROUPS`
shape). -/

structure GroupDefinition where
  id : String
  name : String
  icon : String
  patterns : List String
  enabled : Bool
  order : Int
deriving DecidableEq, Repr

/-- The portion of popup state produced by `loadSettings`: `categoryPatterns`
(a JS object, name → patterns) and `categoryOrder` (names in display order). -/

structure Settings where
  categoryPatterns : List (String × List String)
  categoryOrder : List String
deriving DecidableEq, Repr

/-- Build a JS object / `Map` by repeated `set`, as `loadSettings`'s `forEach`
over groups and `organizeHistory`'s category-initialisation loop both do. -/

def buildMap {β α : Type} (kf : β → String) (vf : β → α) :
    List (String × α) → List β → List (String × α)
  | acc, [] => acc
  | acc, b :: rest => buildMap kf vf (mapSet acc (kf b) (vf b)) rest

/-- Comparator of `loadSettings`: `.sort((a, b) => a.order - b.order)`. -/

def orderLe (a b : GroupDefinition) : Bool := decide (a.order ≤ b.order)

/-- The enabled groups in ascending `order`, as `loadSettings` filters and
sorts them. -/

def enabledSorted (defs : List GroupDefinition) : List GroupDefinition :=
  sortBy orderLe (defs.filter (fun g => g.enabled))

/-- `loadSettings` (the storage-read succeeded path): convert the stored group
list to `categoryPatterns` / `categoryOrder`, then append an `Others`
category when none is present. -/

def loadSettingsPure (defs : List GroupDefinition) : Settings :=
  let sorted := enabledSorted defs
  let pats := buildMap (fun g => g.name) (fun g => g.patterns) [] sorted
  let order := sorted.map (fun g => g.name)
  if (lookupKey pats "Others").isSome then ⟨pats, order⟩
  else ⟨pats ++ [("Others", [])], order ++ ["Others"]⟩

/-- One Chrome history entry (`url` required by the data model; a missing URL
is modelled by the empty string, which is exactly what `!item.url` rejects). -/

structure HistoryEntry where
  url : String
  title : Option String := none
  lastVisitTime : Nat := 0
  visitCount : Option Nat := none
deriving DecidableEq, Repr

/-- JS `item.visitCount || 1`: absent and zero both count as one visit. -/

def jsVisits (e : HistoryEntry) : Nat :=
  match e.visitCount with
  | some n => if n = 0 then 1 else n
  | none => 1

/-- A derived group as built by `organizeHistory`. -/

structure Group where
  name : String
  items : List HistoryEntry
  totalVisits : Nat
  lastVisit : Nat
deriving DecidableEq, Repr

/-- The category-initialisation loop of `organizeHistory`. -/

def initGroups (order : List String) : List (String × Group) :=
  buildMap (fun n => n) (fun n => Group.mk n [] 0 0) [] order

/-- The pattern loop of `organizeHistory`: scan the given category entries in
order, return the first category any of whose patterns is contained in the
domain.  `organizeHistory` feeds it `Object.entries(categoryPatterns)`, whose
enumeration order is modelled by `jsObjectEntries`. -/
def classifyDomain (cats : List (String × List String)) (domain : String) : Option String :=
  match cats with
  | [] => none
  | c :: rest =>
    if c.2.any (fun p => matchesPattern domain p) then some c.1
    else classifyDomain rest domain

/-- ASCII digit test for property-key classification. -/
def isDigitChar (c : Char) : Bool := decide ('0' ≤ c) && decide (c ≤ '9')

/-- Numeric value of an all-digit string. -/
def strToNat (s : String) : Nat := s.data.foldl (fun n c => n * 10 + (c.toNat - 48)) 0

/-- ECMAScript array-index property key: a canonical numeric string (all
digits, no leading zero except `"0"` itself) whose value is below 2^32 - 1.
`Object.entries` enumerates these keys first, in ascending numeric order. -/
def isArrayIndexName (s : String) : Bool :=
  !s.data.isEmpty && s.data.all isDigitChar
    && (decide (s = "0") || !(decide (s.data.headD '0' = '0')))
    && decide (strToNat s < 4294967295)

/-- Ascending numeric order on array-index property keys. -/
def idxNameLe {α : Type} (a b : String × α) : Bool := decide (strToNat a.1 ≤ strToNat b.1)

/-- `Object.entries` on a JS plain object: array-index keys first in ascending
numeric order, then the remaining string keys in insertion order. -/
def jsObjectEntries {α : Type} (obj : List (String × α)) : List (String × α) :=
  sortBy idxNameLe (obj.filter (fun p => isArrayIndexName p.1))
    ++ obj.filter (fun p => !(isArrayIndexName p.1))

/-- `new URL(item.url).hostname.toLowerCase()` for the well-formed absolute
URLs the history API returns: the part after the scheme separator, before any
path, with userinfo and port stripped, lowercased. -/

def extractHostname (url : String) : String :=
  let after := match url.splitOn "://" with
    | [] => url
    | [s] => s
    | _ :: s :: _ => s
  let host := (after.splitOn "/").headD after
  let host2 := (host.splitOn "@").getLastD host
  strToLower ((host2.splitOn ":").headD host2)

/-- Accumulate one history item into a group: `items.push`, `totalVisits +=
visitCount || 1`, `lastVisit = max(lastVisit, lastVisitTime || 0)`. -/

def addItemToGroup (g : Group) (e : HistoryEntry) : Group :=
  ⟨g.name, g.items ++ [e], g.totalVisits + jsVisits e, max g.lastVisit e.lastVisitTime⟩

/-- `websiteGroups.get(name)` followed by mutation; `none` models the
`TypeError` JS would raise when the group is absent from the map. -/

def updateGroup (gs : List (String × Group)) (name : String) (e : HistoryEntry) :
    Option (List (String × Group)) :=
  if (lookupKey gs name).isSome then some (mapAdjust (fun g => addItemToGroup g e) gs name)
  else none

/-- The categorisation loop of `organizeHistory` over the history snapshot:
skip entries with a falsy `url`, otherwise add the entry to the first
matching category, or to `Others` when nothing matches. -/

def organizeItems (cats : List (String × List String)) :
    List HistoryEntry → List (String × Group) → Option (List (String × Group))
  | [], gs => some gs
  | item :: rest, gs =>
    if item.url = "" then organizeItems cats rest gs
    else
      match updateGroup gs ((classifyDomain cats (extractHostname item.url)).getD "Others") item with
      | some gs' => organizeItems cats rest gs'
      | none => none

/-- In-group comparator of `organizeHistory`'s final pass:
`(b.lastVisitTime || 0) - (a.lastVisitTime || 0)` (descending recency). -/

def timeDescLe (a b : HistoryEntry) : Bool := decide (b.lastVisitTime ≤ a.lastVisitTime)

/-- `organizeHistory`: rebuild all groups, categorise every entry scanning
`Object.entries(this.categoryPatterns)` (array-index names enumerate first),
drop empty groups, and sort each group's items by last visit time. -/
def organizeHistory (s : Settings) (history : List HistoryEntry) :
    Option (List (String × Group)) :=
  (organizeItems (jsObjectEntries s.categoryPatterns) history (initGroups s.categoryOrder)).map
    (fun gs => (gs.filter (fun p => !p.2.items.isEmpty)).map
      (fun p => (p.1, Group.mk p.2.name (sortBy timeDescLe p.2.items)
        p.2.totalVisits p.2.lastVisit)))

/-- Total number of items over all groups of an organize result. -/

def sumItems (gs : List (String × Group)) : Nat :=
  (gs.map (fun p => p.2.items.length)).sum

/-- Comparator used on `[url, count]` pairs throughout the frequency code:
`.sort((a, b) => b[1] - a[1])` (descending count). -/

def countDescLe (a b : String × Nat) : Bool := decide (b.2 ≤ a.2)

/-- The per-URL accumulation loop of `calculateVisitFrequency`:
`visitFrequency.set(url, (visitFrequency.get(url) || 0) + visitCount)`. -/

def aggAux : List (String × Nat) → List HistoryEntry → List (String × Nat)
  | acc, [] => acc
  | acc, e :: rest =>
    aggAux (mapSet acc e.url ((lookupKey acc e.url).getD 0 + jsVisits e)) rest

/-- Per-URL visit totals of a snapshot, in first-occurrence order (JS `Map`
iteration order). -/

def aggregateFreq (history : List HistoryEntry) : List (String × Nat) :=
  aggAux [] history

/-- `calculateVisitFrequency`: aggregate counts, sort descending, truncate the
map to the top 50 whenever more than 75 URLs are tracked, then keep the top
`Math.max(10, Math.floor(length * 0.2))` URLs; for every length reachable here
(at most 75, or exactly 50 after truncation) `Math.floor(length * 0.2)` is
exactly `length / 5` in integer division.  Returns the final `visitFrequency`
map and `topVisitedUrls`. -/

def calculateVisitFrequency (history : List HistoryEntry) :
    List (String × Nat) × List String :=
  let freq := aggregateFreq history
  let sorted0 := sortBy countDescLe freq
  let fs := if sorted0.length > 75 then (sorted0.take 50, sorted0.take 50) else (freq, sorted0)
  let topCount := max 10 (fs.2.length / 5)
  (fs.1, (fs.2.take topCount).map (fun p => p.1))

/-- Stated from the spec's words, for comparison with the code: the top
`max(10, floor(0.2 * distinctUrlCount))` URLs by count, descending, ties by
original iteration order (stable sort). -/

def specTopVisited (history : List HistoryEntry) : List String :=
  let freq := aggregateFreq history
  ((sortBy countDescLe freq).take (max 10 (freq.length / 5))).map (fun p => p.1)

/-- Total `visitCount || 1` over the snapshot entries bearing a URL. -/

def sumVisits (history : List HistoryEntry) (url : String) : Nat :=
  ((history.filter (fun e => decide (e.url = url))).map jsVisits).sum

/-- `optimizeFrequencyData`: keep only counts ≥ 3, top 50 by count. -/

def optimizeFrequencyData (freq : List (String × Nat)) : List (String × Nat) :=
  (sortBy countDescLe (freq.filter (fun p => decide (3 ≤ p.2)))).take 50

/-- `getMinimalFrequencyData`: emergency fallback, top 15 by count. -/

def getMinimalFrequencyData (freq : List (String × Nat)) : List (String × Nat) :=
  (sortBy countDescLe freq).take 15

/-- The `topVisitedUrls` payload written by `saveVisitFrequency`:
`Array.from(this.topVisitedUrls).slice(0, 30)`. -/

def savedTopVisited (tops : List String) : List String := tops.take 30

/-- The frequency-mode comparator of `renderRecentVisits`, returned value for
a pair `(a, b)` exactly as in the source. -/

def visitCmp (freq : List (String × Nat)) (top : List String) (a b : HistoryEntry) : Int :=
  let aFreq : Nat := (lookupKey freq a.url).getD 0
  let bFreq : Nat := (lookupKey freq b.url).getD 0
  let aIsTop := setHas top a.url
  let bIsTop := setHas top b.url
  if aIsTop && !bIsTop then -1
  else if !aIsTop && bIsTop then 1
  else if aFreq ≠ bFreq then (bFreq : Int) - (aFreq : Int)
  else (b.lastVisitTime : Int) - (a.lastVisitTime : Int)

/-- `a` may stay before `b` under the comparator (`cmp(a, b) <= 0`). -/

def visitLe (freq : List (String × Nat)) (top : List String) (a b : HistoryEntry) : Bool :=
  decide (visitCmp freq top a b ≤ 0)

/-- `group.items.sort(...)` in frequency mode. -/

def sortVisits (freq : List (String × Nat)) (top : List String)
    (items : List HistoryEntry) : List HistoryEntry :=
  sortBy (visitLe freq top) items

/-- The three sort keys of an entry: top-visited membership (1 before 0),
frequency count, last visit time. -/

def sortKey (freq : List (String × Nat)) (top : List String) (e : HistoryEntry) :
    Nat × Nat × Nat :=
  ((if setHas top e.url then 1 else 0), (lookupKey freq e.url).getD 0, e.lastVisitTime)

/-- Lexicographic comparison of sort keys, smaller keys sorting later. -/

def keyLe (x y : Nat × Nat × Nat) : Prop :=
  x.1 < y.1 ∨ (x.1 = y.1 ∧ (x.2.1 < y.2.1 ∨ (x.2.1 = y.2.1 ∧ x.2.2 ≤ y.2.2)))

/-- Favorites and custom-tag state (`favorites` JS `Set`, `favoriteTags` JS
`Map`). -/

structure FavState where
  favorites : List String
  favoriteTags : List (String × String)
deriving DecidableEq, Repr

/-- The invariant named by the spec: a tag implies favorite membership. -/

def TagInv (s : FavState) : Prop := ∀ p ∈ s.favoriteTags, p.1 ∈ s.favorites

instance (s : FavState) : Decidable (TagInv s) :=
  inferInstanceAs (Decidable (∀ p ∈ s.favoriteTags, p.1 ∈ s.favorites))

/-- `toggleFavorite`: delete the URL when starred, add it otherwise; tags are
not touched. -/

def toggleFavorite (s : FavState) (url : String) : FavState :=
  if setHas s.favorites url then { s with favorites := s.favorites.erase url }
  else { s with favorites := s.favorites ++ [url] }

/-- `saveTag`: a non-empty custom name is stored and the URL is made a
favorite when not one already; an empty name deletes the tag. -/

def saveTag (s : FavState) (url customName : String) : FavState :=
  if customName ≠ "" then
    let s1 : FavState := { s with favoriteTags := mapSet s.favoriteTags url customName }
    if setHas s1.favorites url then s1
    else { s1 with favorites := s1.favorites ++ [url] }
  else { s with favoriteTags := eraseKey s.favoriteTags url }

/-- `deleteTag`. -/

def deleteTag (s : FavState) (url : String) : FavState :=
  { s with favoriteTags := eraseKey s.favoriteTags url }

/-- `addToFavorites`. -/

def addToFavorites (s : FavState) (url customName : String) : FavState :=
  let s1 : FavState := { s with favorites := setAdd s.favorites url }
  if customName ≠ "" then { s1 with favoriteTags := mapSet s1.favoriteTags url customName }
  else s1

/-- What one load cycle leaves in popup state: the organized groups, the
frequency data, and the error message `showError` would display (if any). -/

structure LoadOutcome where
  groups : List (String × Group)
  visitFrequency : List (String × Nat)
  topVisitedUrls : List String
  errorMessage : Option String
deriving DecidableEq, Repr

/-- The `try` block of `loadHistory`: await the history search (which may
reject), compute frequency data, organize.  A failed lookup inside
`organizeHistory` is a thrown `TypeError`, hence an `Except.error`. -/

def loadHistoryBody (s : Settings) (searchResult : Except String (List HistoryEntry)) :
    Except String LoadOutcome := do
  let h ← searchResult
  let ft := calculateVisitFrequency h
  match organizeHistory s h with
  | some gs => pure ⟨gs, ft.1, ft.2, none⟩
  | none => Except.error "TypeError: undefined group"

/-- `loadHistory` with its `catch`: any error is swallowed and converted into
the `showError` message, with the fresh-cycle empty state left in place. -/

def loadHistoryModel (s : Settings) (searchResult : Except String (List HistoryEntry)) :
    LoadOutcome :=
  match loadHistoryBody s searchResult with
  | Except.ok o => o
  | Except.error _ => ⟨[], [], [], some "Failed to load history. Please check permissions."⟩

/-- A snapshot with 76 distinct URLs (counts 100 down to 25), crossing the
75-URL truncation threshold of `calculateVisitFrequency`. -/

def ex76 : List HistoryEntry :=
  (List.range 76).map (fun i => { url := toString i, visitCount := some (100 - i) })

/-- The spec's own three-entry example snapshot. -/

def exC4 : List HistoryEntry :=
  [{ url := "a", visitCount := some 5 }, { url := "a", visitCount := some 3 },
   { url := "b", visitCount := some 1 }]

theorem setHas_iff (l : List String) (u : String) : setHas l u = true ↔ u ∈ l := by
  simp [setHas]

theorem lookupKey_mapSet_self {α : Type} (gs : List (String × α)) (k : String) (v : α) :
    lookupKey (mapSet gs k v) k = some v := by
  induction gs with
  | nil => simp [mapSet, lookupKey]
  | cons p rest ih =>
    by_cases h : p.1 = k
    · simp [mapSet, h, lookupKey]
    · simp [mapSet, h, lookupKey, ih]

theorem lookupKey_mapSet_ne {α : Type} (gs : List (String × α)) (k k' : String) (v : α)
    (h : k' ≠ k) : lookupKey (mapSet gs k v) k' = lookupKey gs k' := by
  have hkk : ¬ (k = k') := fun h' => h h'.symm
  induction gs with
  | nil => simp [mapSet, lookupKey, hkk]
  | cons p rest ih =>
    by_cases hp : p.1 = k
    · subst hp
      simp [mapSet, lookupKey, hkk]
    · by_cases hp' : p.1 = k'
      · simp [mapSet, hp, lookupKey, hp', h]
      · simp [mapSet, hp, lookupKey, hp', ih]

theorem mem_mapSet {α : Type} (gs : List (String × α)) (k : String) (v : α) (q : String × α)
    (hq : q ∈ mapSet gs k v) : q = (k, v) ∨ q ∈ gs := by
  induction gs with
  | nil => simpa [mapSet] using hq
  | cons p rest ih =>
    by_cases hp : p.1 = k
    · have he : mapSet (p :: rest) k v = (k, v) :: rest := by simp [mapSet, hp]
      rw [he] at hq
      rcases List.mem_cons.mp hq with h1 | h1
      · exact Or.inl h1
      · exact Or.inr (List.mem_cons_of_mem _ h1)
    · have he : mapSet (p :: rest) k v = p :: mapSet rest k v := by simp [mapSet, hp]
      rw [he] at hq
      rcases List.mem_cons.mp hq with h1 | h1
      · exact Or.inr (by simp [h1])
      · rcases ih h1 with h2 | h2
        · exact Or.inl h2
        · exact Or.inr (List.mem_cons_of_mem _ h2)

theorem mem_eraseKey {α : Type} (gs : List (String × α)) (k : String) (q : String × α)
    (hq : q ∈ eraseKey gs k) : q ∈ gs := by
  induction gs with
  | nil => simpa [eraseKey] using hq
  | cons p rest ih =>
    by_cases hp : p.1 = k
    · have he : eraseKey (p :: rest) k = rest := by simp [eraseKey, hp]
      rw [he] at hq
      exact List.mem_cons_of_mem _ hq
    · have he : eraseKey (p :: rest) k = p :: eraseKey rest k := by simp [eraseKey, hp]
      rw [he] at hq
      rcases List.mem_cons.mp hq with h1 | h1
      · simp [h1]
      · exact List.mem_cons_of_mem _ (ih h1)

theorem lookupKey_isSome_of_mem {α : Type} (gs : List (String × α)) (q : String × α)
    (hq : q ∈ gs) : (lookupKey gs q.1).isSome := by
  induction gs with
  | nil => simp at hq
  | cons p rest ih =>
    rcases List.mem_cons.mp hq with h1 | h1
    · simp [lookupKey, h1]
    · by_cases hp : p.1 = q.1
      · simp [lookupKey, hp]
      · simp [lookupKey, hp, ih h1]

theorem insertBy_perm {α : Type} (le : α → α → Bool) (a : α) (l : List α) :
    List.Perm (insertBy le a l) (a :: l) := by
  induction l with
  | nil => simp [insertBy]
  | cons b l ih =>
    by_cases h : le a b = true
    · have he : insertBy le a (b :: l) = a :: b :: l := by simp [insertBy, h]
      rw [he]
    · have he : insertBy le a (b :: l) = b :: insertBy le a l := by simp [insertBy, h]
      rw [he]
      exact (ih.cons b).trans (List.Perm.swap a b l)

theorem sortBy_perm {α : Type} (le : α → α → Bool) (l : List α) :
    List.Perm (sortBy le l) l := by
  induction l with
  | nil => simp [sortBy]
  | cons a l ih =>
    exact (insertBy_perm le a (sortBy le l)).trans (ih.cons a)

theorem insertBy_pairwise {α : Type} (le : α → α → Bool)
    (htot : ∀ a b, le a b = true ∨ le b a = true)
    (htrans : ∀ a b c, le a b = true → le b c = true → le a c = true)
    (a : α) (l : List α) (hl : l.Pairwise (fun x y => le x y = true)) :
    (insertBy le a l).Pairwise (fun x y => le x y = true) := by
  induction l with
  | nil => simp [insertBy]
  | cons b l ih =>
    rcases List.pairwise_cons.mp hl with ⟨hb, hl'⟩
    by_cases h : le a b = true
    · have he : insertBy le a (b :: l) = a :: b :: l := by simp [insertBy, h]
      rw [he]
      refine List.pairwise_cons.mpr ⟨?_, hl⟩
      intro y hy
      rcases List.mem_cons.mp hy with rfl | hy
      · exact h
      · exact htrans a b y h (hb y hy)
    · have hba : le b a = true := by
        rcases htot a b with h' | h'
        · exact absurd h' h
        · exact h'
      have he : insertBy le a (b :: l) = b :: insertBy le a l := by simp [insertBy, h]
      rw [he]
      refine List.pairwise_cons.mpr ⟨?_, ih hl'⟩
      intro y hy
      have hy' := (insertBy_perm le a l).mem_iff.mp hy
      rcases List.mem_cons.mp hy' with rfl | hy''
      · exact hba
      · exact hb y hy''

theorem sortBy_pairwise {α : Type} (le : α → α → Bool)
    (htot : ∀ a b, le a b = true ∨ le b a = true)
    (htrans : ∀ a b c, le a b = true → le b c = true → le a c = true)
    (l : List α) : (sortBy le l).Pairwise (fun x y => le x y = true) := by
  induction l with
  | nil => simp [sortBy]
  | cons a l ih => exact insertBy_pairwise le htot htrans a (sortBy le l) ih

theorem sublist_insertBy {α : Type} (le : α → α → Bool) (a : α) (l : List α) :
    List.Sublist l (insertBy le a l) := by
  induction l with
  | nil => simp [insertBy]
  | cons b l ih =>
    by_cases h : le a b = true
    · have he : insertBy le a (b :: l) = a :: b :: l := by simp [insertBy, h]
      rw [he]
      exact (List.Sublist.refl (b :: l)).cons a
    · have he : insertBy le a (b :: l) = b :: insertBy le a l := by simp [insertBy, h]
      rw [he]
      exact ih.cons₂ b

theorem insertBy_sublist_cons {α : Type} (le : α → α → Bool) (a : α) (c L : List α)
    (hc : ∀ y ∈ c, le a y = true) (h : List.Sublist c L) :
    List.Sublist (a :: c) (insertBy le a L) := by
  induction L generalizing c with
  | nil =>
    have hn : c = [] := List.sublist_nil.mp h
    subst hn
    simp [insertBy]
  | cons b L ih =>
    by_cases hab : le a b = true
    · have he : insertBy le a (b :: L) = a :: b :: L := by simp [insertBy, hab]
      rw [he]
      exact h.cons₂ a
    · have he : insertBy le a (b :: L) = b :: insertBy le a L := by simp [insertBy, hab]
      rw [he]
      cases h with
      | cons _ h' =>
        exact (ih c hc h').cons b
      | cons₂ _ h' =>
        exact absurd (hc b (List.mem_cons_self b _)) hab

theorem sortBy_stable_sublist {α : Type} (le : α → α → Bool) {c l : List α}
    (h : List.Sublist c l) (hp : c.Pairwise (fun x y => le x y = true)) :
    List.Sublist c (sortBy le l) := by
  induction h with
  | slnil => simp [sortBy]
  | cons a h ih =>
    exact (ih hp).trans (sublist_insertBy le a _)
  | cons₂ a h ih =>
    rcases List.pairwise_cons.mp hp with ⟨ha, hp'⟩
    exact insertBy_sublist_cons le a _ _ ha (ih hp')

theorem pairwise_of_forall_mem {α : Type} (r : α → α → Prop) (l : List α)
    (h : ∀ a ∈ l, ∀ b ∈ l, r a b) : l.Pairwise r := by
  induction l with
  | nil => simp
  | cons a l ih =>
    refine List.pairwise_cons.mpr ⟨?_, ?_⟩
    · intro b hb
      exact h a (List.mem_cons_self a l) b (List.mem_cons_of_mem a hb)
    · exact ih (fun x hx y hy =>
        h x (List.mem_cons_of_mem a hx) y (List.mem_cons_of_mem a hy))

/-- Stability of `sortBy` in filter form: the sublist of elements picked out by
any predicate on which the comparator never orders strictly is untouched. -/

theorem sortBy_filter_eq {α : Type} (le : α → α → Bool) (p : α → Bool) (l : List α)
    (hp : ∀ a b, p a = true → p b = true → le a b = true) :
    (sortBy le l).filter p = l.filter p := by
  have h1 : List.Sublist (l.filter p) (sortBy le l) := by
    apply sortBy_stable_sublist le (List.filter_sublist l)
    apply pairwise_of_forall_mem
    intro a ha b hb
    exact hp a b (List.of_mem_filter ha) (List.of_mem_filter hb)
  have h2 : List.Sublist ((l.filter p).filter p) ((sortBy le l).filter p) :=
    List.Sublist.filter p h1
  rw [List.filter_filter] at h2
  have h2' : List.Sublist (l.filter p) ((sortBy le l).filter p) := by
    simpa using h2
  have hlen : ((sortBy le l).filter p).length = (l.filter p).length :=
    ((sortBy_perm le l).filter p).length_eq
  exact (List.Sublist.eq_of_length h2' hlen.symm).symm

theorem sortBy_length {α : Type} (le : α → α → Bool) (l : List α) :
    (sortBy le l).length = l.length := (sortBy_perm le l).length_eq

theorem lookupKey_isSome_iff {α : Type} (gs : List (String × α)) (k : String) :
    (lookupKey gs k).isSome = true ↔ k ∈ gs.map Prod.fst := by
  induction gs with
  | nil => simp [lookupKey]
  | cons p rest ih =>
    by_cases hp : p.1 = k
    · simp [lookupKey, hp]
    · rw [show lookupKey (p :: rest) k = lookupKey rest k from by simp [lookupKey, hp]]
      rw [ih]
      constructor
      · intro h
        exact List.mem_cons_of_mem _ h
      · intro h
        rcases List.mem_cons.mp h with h1 | h1
        · exact absurd h1.symm hp
        · exact h1

theorem lookupKey_mapSet_isSome {α : Type} (gs : List (String × α)) (k k' : String) (v : α) :
    (lookupKey (mapSet gs k v) k').isSome = true ↔ k' = k ∨ (lookupKey gs k').isSome = true := by
  by_cases h : k' = k
  · subst h
    simp [lookupKey_mapSet_self]
  · simp [lookupKey_mapSet_ne gs k k' v h, h]

theorem lookupKey_mapAdjust_isSome {α : Type} (f : α → α) (gs : List (String × α))
    (k k' : String) :
    (lookupKey (mapAdjust f gs k) k').isSome = (lookupKey gs k').isSome := by
  induction gs with
  | nil => simp [mapAdjust]
  | cons p rest ih =>
    by_cases hp : p.1 = k
    · by_cases hp' : p.1 = k'
      · simp [mapAdjust, hp, lookupKey, hp ▸ hp'.symm, hp']
      · have : ¬ (k = k') := fun h => hp' (hp.trans h)
        simp [mapAdjust, hp, lookupKey, this, hp']
    · by_cases hp' : p.1 = k'
      · have : ¬ (k' = k) := fun h => hp (hp'.trans h)
        simp [mapAdjust, hp, lookupKey, hp', this]
      · simp [mapAdjust, hp, lookupKey, hp', ih]

theorem buildMap_lookup_isSome {β α : Type} (kf : β → String) (vf : β → α)
    (L : List β) (acc : List (String × α)) (k : String) :
    (lookupKey (buildMap kf vf acc L) k).isSome = true ↔
      (lookupKey acc k).isSome = true ∨ k ∈ L.map kf := by
  induction L generalizing acc with
  | nil => simp [buildMap]
  | cons b rest ih =>
    rw [show buildMap kf vf acc (b :: rest) = buildMap kf vf (mapSet acc (kf b) (vf b)) rest
      from rfl]
    rw [ih]
    rw [lookupKey_mapSet_isSome]
    simp [or_assoc, or_comm (a := k = kf b)]

theorem classifyDomain_mem (cats : List (String × List String)) (d : String) (n : String)
    (h : classifyDomain cats d = some n) : n ∈ cats.map Prod.fst := by
  induction cats with
  | nil => simp [classifyDomain] at h
  | cons c rest ih =>
    by_cases hc : c.2.any (fun p => matchesPattern d p) = true
    · rw [show classifyDomain (c :: rest) d = some c.1 from by simp [classifyDomain, hc]] at h
      simp [← Option.some_inj.mp h]
    · rw [show classifyDomain (c :: rest) d = classifyDomain rest d from by
        simp [classifyDomain, hc]] at h
      exact List.mem_cons_of_mem _ (ih h)

theorem sumItems_nil : sumItems [] = 0 := rfl

theorem sumItems_cons (p : String × Group) (gs : List (String × Group)) :
    sumItems (p :: gs) = p.2.items.length + sumItems gs := by
  simp [sumItems]

theorem sumItems_mapAdjust (gs : List (String × Group)) (name : String) (e : HistoryEntry)
    (h : (lookupKey gs name).isSome = true) :
    sumItems (mapAdjust (fun g => addItemToGroup g e) gs name) = sumItems gs + 1 := by
  induction gs with
  | nil => simp [lookupKey] at h
  | cons p rest ih =>
    by_cases hp : p.1 = name
    · rw [show mapAdjust (fun g => addItemToGroup g e) (p :: rest) name
          = (p.1, addItemToGroup p.2 e) :: rest from by simp [mapAdjust, hp]]
      simp [sumItems_cons, addItemToGroup]
      omega
    · rw [show mapAdjust (fun g => addItemToGroup g e) (p :: rest) name
          = p :: mapAdjust (fun g => addItemToGroup g e) rest name from by simp [mapAdjust, hp]]
      rw [show (lookupKey (p :: rest) name).isSome = (lookupKey rest name).isSome from by
        simp [lookupKey, hp]] at h
      simp [sumItems_cons, ih h]
      omega

theorem updateGroup_sum (gs gs' : List (String × Group)) (name : String) (e : HistoryEntry)
    (h : updateGroup gs name e = some gs') : sumItems gs' = sumItems gs + 1 := by
  by_cases hk : (lookupKey gs name).isSome = true
  · rw [show updateGroup gs name e = some (mapAdjust (fun g => addItemToGroup g e) gs name)
      from by simp [updateGroup, hk]] at h
    rw [← Option.some_inj.mp h]
    exact sumItems_mapAdjust gs name e hk
  · rw [show updateGroup gs name e = none from by simp [updateGroup, hk]] at h
    exact absurd h (by simp)

theorem updateGroup_isSome_keys (gs gs' : List (String × Group)) (name : String)
    (e : HistoryEntry) (h : updateGroup gs name e = some gs') (k : String) :
    (lookupKey gs' k).isSome = (lookupKey gs k).isSome := by
  by_cases hk : (lookupKey gs name).isSome = true
  · rw [show updateGroup gs name e = some (mapAdjust (fun g => addItemToGroup g e) gs name)
      from by simp [updateGroup, hk]] at h
    rw [← Option.some_inj.mp h]
    exact lookupKey_mapAdjust_isSome _ gs name k
  · rw [show updateGroup gs name e = none from by simp [updateGroup, hk]] at h
    exact absurd h (by simp)

theorem organizeItems_sum (cats : List (String × List String)) (hist : List HistoryEntry)
    (gs gs' : List (String × Group)) (h : organizeItems cats hist gs = some gs')
    (hurl : ∀ e ∈ hist, e.url ≠ "") : sumItems gs' = sumItems gs + hist.length := by
  induction hist generalizing gs with
  | nil =>
    rw [show organizeItems cats [] gs = some gs from rfl] at h
    simp [← Option.some_inj.mp h]
  | cons item rest ih =>
    have hne : ¬ (item.url = "") := hurl item (List.mem_cons_self item rest)
    rw [show organizeItems cats (item :: rest) gs
        = match updateGroup gs ((classifyDomain cats (extractHostname item.url)).getD "Others")
            item with
          | some gs₁ => organizeItems cats rest gs₁
          | none => none
      from by simp [organizeItems, hne]] at h
    rcases hu : updateGroup gs ((classifyDomain cats (extractHostname item.url)).getD "Others")
        item with _ | gs₁
    · rw [hu] at h
      exact absurd h (by simp)
    · rw [hu] at h
      have h1 := ih gs₁ h (fun e he => hurl e (List.mem_cons_of_mem _ he))
      have h2 := updateGroup_sum gs gs₁ _ item hu
      rw [h1, h2]
      simp
      omega

theorem organizeItems_isSome (cats : List (String × List String)) (hist : List HistoryEntry)
    (gs : List (String × Group))
    (hkeys : ∀ n ∈ cats.map Prod.fst, (lookupKey gs n).isSome = true)
    (hoth : (lookupKey gs "Others").isSome = true) :
    (organizeItems cats hist gs).isSome = true := by
  induction hist generalizing gs with
  | nil => simp [organizeItems]
  | cons item rest ih =>
    by_cases hne : item.url = ""
    · rw [show organizeItems cats (item :: rest) gs = organizeItems cats rest gs from by
        simp [organizeItems, hne]]
      exact ih gs hkeys hoth
    · have hname : (lookupKey gs
          ((classifyDomain cats (extractHostname item.url)).getD "Others")).isSome = true := by
        rcases hc : classifyDomain cats (extractHostname item.url) with _ | n
        · simpa using hoth
        · simpa using hkeys n (classifyDomain_mem cats _ n hc)
      have hupd : updateGroup gs ((classifyDomain cats (extractHostname item.url)).getD "Others")
          item = some (mapAdjust (fun g => addItemToGroup g item) gs
            ((classifyDomain cats (extractHostname item.url)).getD "Others")) := by
        simp [updateGroup, hname]
      rw [show organizeItems cats (item :: rest) gs
          = match updateGroup gs
              ((classifyDomain cats (extractHostname item.url)).getD "Others") item with
            | some gs₁ => organizeItems cats rest gs₁
            | none => none
        from by simp [organizeItems, hne], hupd]
      apply ih
      · intro n hn
        rw [updateGroup_isSome_keys gs _ _ item hupd n]
        exact hkeys n hn
      · rw [updateGroup_isSome_keys gs _ _ item hupd "Others"]
        exact hoth

theorem lookupKey_append_isSome {α : Type} (l1 l2 : List (String × α)) (k : String) :
    (lookupKey (l1 ++ l2) k).isSome = true ↔
      (lookupKey l1 k).isSome = true ∨ (lookupKey l2 k).isSome = true := by
  simp [lookupKey_isSome_iff]

theorem loadSettingsPure_keys (defs : List GroupDefinition) (n : String)
    (h : n ∈ (loadSettingsPure defs).categoryPatterns.map Prod.fst) :
    n ∈ (loadSettingsPure defs).categoryOrder := by
  unfold loadSettingsPure at *
  by_cases ho : (lookupKey
      (buildMap (fun g => g.name) (fun g => g.patterns) [] (enabledSorted defs))
      "Others").isSome = true
  · simp only [ho, if_pos] at h ⊢
    have h1 := (lookupKey_isSome_iff _ n).mpr h
    have h2 := (buildMap_lookup_isSome (fun g => g.name) (fun g => g.patterns)
      (enabledSorted defs) [] n).mp h1
    rcases h2 with h2 | h2
    · simp [lookupKey] at h2
    · simpa using h2
  · simp only [ho, if_neg, Bool.not_eq_true] at h ⊢
    have h1 := (lookupKey_isSome_iff _ n).mpr h
    rcases (lookupKey_append_isSome _ _ n).mp h1 with h2 | h2
    · have h3 := (buildMap_lookup_isSome (fun g => g.name) (fun g => g.patterns)
        (enabledSorted defs) [] n).mp h2
      rcases h3 with h3 | h3
      · simp [lookupKey] at h3
      · exact List.mem_append_left _ (by simpa using h3)
    · have : n = "Others" := by
        by_cases hn : ("Others" : String) = n
        · exact hn.symm
        · simp [lookupKey, hn] at h2
      exact List.mem_append_right _ (by simp [this])

theorem loadSettingsPure_others_order (defs : List GroupDefinition) :
    "Others" ∈ (loadSettingsPure defs).categoryOrder := by
  unfold loadSettingsPure
  by_cases ho : (lookupKey
      (buildMap (fun g => g.name) (fun g => g.patterns) [] (enabledSorted defs))
      "Others").isSome = true
  · simp only [ho, if_pos]
    have h2 := (buildMap_lookup_isSome (fun g => g.name) (fun g => g.patterns)
      (enabledSorted defs) [] "Others").mp ho
    rcases h2 with h2 | h2
    · simp [lookupKey] at h2
    · simpa using h2
  · simp only [ho, if_neg, Bool.not_eq_true]
    exact List.mem_append_right _ (by simp)

theorem loadSettingsPure_others_pats (defs : List GroupDefinition) :
    (lookupKey (loadSettingsPure defs).categoryPatterns "Others").isSome = true := by
  unfold loadSettingsPure
  by_cases ho : (lookupKey
      (buildMap (fun g => g.name) (fun g => g.patterns) [] (enabledSorted defs))
      "Others").isSome = true
  · simpa [ho] using ho
  · simp only [ho, if_neg, Bool.not_eq_true]
    exact (lookupKey_append_isSome _ _ "Others").mpr (Or.inr (by simp [lookupKey]))

theorem initGroups_lookup (order : List String) (n : String) (h : n ∈ order) :
    (lookupKey (initGroups order) n).isSome = true := by
  unfold initGroups
  exact (buildMap_lookup_isSome _ _ order [] n).mpr (Or.inr (by simpa using h))

theorem jsObjectEntries_perm {α : Type} (obj : List (String × α)) :
    List.Perm (jsObjectEntries obj) obj := by
  unfold jsObjectEntries
  have h1 := sortBy_perm idxNameLe (obj.filter (fun p => isArrayIndexName p.1))
  have h2 := List.filter_append_perm (fun p => isArrayIndexName p.1) obj
  exact (h1.append_right _).trans h2

theorem organizeItems_loadSettings_isSome (defs : List GroupDefinition)
    (history : List HistoryEntry) :
    (organizeItems (jsObjectEntries (loadSettingsPure defs).categoryPatterns) history
      (initGroups (loadSettingsPure defs).categoryOrder)).isSome = true := by
  apply organizeItems_isSome
  · intro n hn
    have hn' : n ∈ (loadSettingsPure defs).categoryPatterns.map Prod.fst :=
      ((jsObjectEntries_perm (loadSettingsPure defs).categoryPatterns).map Prod.fst).mem_iff.mp hn
    exact initGroups_lookup _ n (loadSettingsPure_keys defs n hn')
  · exact initGroups_lookup _ "Others" (loadSettingsPure_others_order defs)

theorem sumItems_eq_zero (gs : List (String × Group)) (h : ∀ p ∈ gs, p.2.items = []) :
    sumItems gs = 0 := by
  induction gs with
  | nil => rfl
  | cons p rest ih =>
    rw [sumItems_cons, h p (List.mem_cons_self p rest)]
    simp [ih (fun q hq => h q (List.mem_cons_of_mem _ hq))]

theorem buildMap_empty_items (order : List String) (acc : List (String × Group))
    (hacc : ∀ p ∈ acc, p.2.items = []) :
    ∀ p ∈ buildMap (fun n => n) (fun n => Group.mk n [] 0 0) acc order, p.2.items = [] := by
  induction order generalizing acc with
  | nil => simpa [buildMap] using hacc
  | cons n rest ih =>
    rw [show buildMap (fun n => n) (fun n => Group.mk n [] 0 0) acc (n :: rest)
        = buildMap (fun n => n) (fun n => Group.mk n [] 0 0)
            (mapSet acc n (Group.mk n [] 0 0)) rest from rfl]
    apply ih
    intro p hp
    rcases mem_mapSet acc n _ p hp with h1 | h1
    · simp [h1]
    · exact hacc p h1

theorem sumItems_initGroups (order : List String) : sumItems (initGroups order) = 0 :=
  sumItems_eq_zero _ (buildMap_empty_items order [] (by simp))

theorem sumItems_finalize (gs : List (String × Group)) :
    sumItems ((gs.filter (fun p => !p.2.items.isEmpty)).map
      (fun p => (p.1, Group.mk p.2.name (sortBy timeDescLe p.2.items)
        p.2.totalVisits p.2.lastVisit))) = sumItems gs := by
  induction gs with
  | nil => rfl
  | cons p rest ih =>
    by_cases hp : p.2.items.isEmpty = true
    · have hnil : p.2.items = [] := by simpa using hp
      rw [show (p :: rest).filter (fun p => !p.2.items.isEmpty)
          = rest.filter (fun p => !p.2.items.isEmpty) from by simp [List.filter, hp]]
      rw [sumItems_cons, hnil, ih]
      simp
    · rw [show (p :: rest).filter (fun p => !p.2.items.isEmpty)
          = p :: rest.filter (fun p => !p.2.items.isEmpty) from by simp [List.filter, hp]]
      rw [List.map_cons, sumItems_cons, sumItems_cons]
      simp only [sortBy_length]
      rw [ih]

/-- C1: on a snapshot of well-formed history entries (every entry has a URL,
as the `HistoryEntry` data model requires), `organizeHistory` over any loaded
settings succeeds, assigning every entry to exactly one group, so the total
item count over the returned groups equals the number of input entries. -/

theorem organize_partition_count (defs : List GroupDefinition) (history : List HistoryEntry)
    (hurl : ∀ e ∈ history, e.url ≠ "") :
    (organizeHistory (loadSettingsPure defs) history).map sumItems = some history.length := by
  rcases Option.isSome_iff_exists.mp (organizeItems_loadSettings_isSome defs history)
    with ⟨gs₀, hgs⟩
  have hsum := organizeItems_sum (jsObjectEntries (loadSettingsPure defs).categoryPatterns)
    history (initGroups (loadSettingsPure defs).categoryOrder) gs₀ hgs hurl
  rw [sumItems_initGroups] at hsum
  unfold organizeHistory
  rw [hgs]
  simp only [Option.map_some']
  rw [sumItems_finalize, hsum]
  simp

/-- Witness for C1 at a concrete two-entry snapshot. -/

theorem organize_partition_count_witness :
    (organizeHistory (loadSettingsPure
      [⟨"dev", "Development", "D", ["github.com"], true, 0⟩])
      [⟨"https://github.com/lean", none, 5, some 2⟩,
       ⟨"https://news.site/", none, 7, none⟩]).map sumItems = some 2 :=
  organize_partition_count _ _ (by decide)

theorem organizeItems_skip_empty (cats : List (String × List String))
    (hist : List HistoryEntry) (gs : List (String × Group)) :
    organizeItems cats hist gs
      = organizeItems cats (hist.filter (fun e => !(decide (e.url = "")))) gs := by
  induction hist generalizing gs with
  | nil => rfl
  | cons item rest ih =>
    by_cases hne : item.url = ""
    · rw [show (item :: rest).filter (fun e => !(decide (e.url = "")))
          = rest.filter (fun e => !(decide (e.url = ""))) from by simp [List.filter, hne]]
      rw [show organizeItems cats (item :: rest) gs = organizeItems cats rest gs from by
        simp [organizeItems, hne]]
      exact ih gs
    · rw [show (item :: rest).filter (fun e => !(decide (e.url = "")))
          = item :: rest.filter (fun e => !(decide (e.url = ""))) from by
        simp [List.filter, hne]]
      rw [show organizeItems cats (item :: rest) gs
          = match updateGroup gs
              ((classifyDomain cats (extractHostname item.url)).getD "Others") item with
            | some gs₁ => organizeItems cats rest gs₁
            | none => none
        from by simp [organizeItems, hne]]
      rw [show organizeItems cats
            (item :: rest.filter (fun e => !(decide (e.url = "")))) gs
          = match updateGroup gs
              ((classifyDomain cats (extractHostname item.url)).getD "Others") item with
            | some gs₁ => organizeItems cats (rest.filter (fun e => !(decide (e.url = "")))) gs₁
            | none => none
        from by simp [organizeItems, hne]]
      rcases hu : updateGroup gs ((classifyDomain cats (extractHostname item.url)).getD "Others")
          item with _ | gs₁
      · rfl
      · exact ih gs₁

/-- C9: `organizeHistory` silently skips entries whose `url` is falsy — the
whole organize result over any settings is unchanged when those entries are
removed from the snapshot, so they contribute to no group's items,
`totalVisits` or `lastVisit`. -/

theorem organize_skips_empty_url (s : Settings) (history : List HistoryEntry) :
    organizeHistory s history
      = organizeHistory s (history.filter (fun e => !(decide (e.url = "")))) := by
  unfold organizeHistory
  rw [organizeItems_skip_empty]

theorem strIncludes_singleton_false (l : List Char) (c : Char) (h : ¬ c ∈ l) :
    strIncludes l [c] = false := by
  induction l with
  | nil => simp [strIncludes]
  | cons x rest ih =>
    have hcx : ¬ (c = x) := fun he => h (by simp [he])
    rw [show strIncludes (x :: rest) [c]
        = (List.isPrefixOf [c] (x :: rest) || strIncludes rest [c]) from rfl]
    rw [ih (fun hm => h (List.mem_cons_of_mem _ hm))]
    simp [List.isPrefixOf, hcx]

theorem organizeHistory_loadSettings_isSome (defs : List GroupDefinition)
    (history : List HistoryEntry) :
    (organizeHistory (loadSettingsPure defs) history).isSome = true := by
  rcases Option.isSome_iff_exists.mp (organizeItems_loadSettings_isSome defs history)
    with ⟨gs₀, hgs⟩
  unfold organizeHistory
  rw [hgs]
  rfl

/-- C10: the catch-all pattern `*` of the default `Others` group never matches
a hostname that does not literally contain `*` (matching is substring
containment), so unmatched entries reach the catch-all only through the
explicit `Others` fallback; `loadSettings` guarantees an `Others` category
always exists (in `categoryPatterns` and `categoryOrder`), so `organizeHistory`
never dereferences a missing group on any snapshot. -/

theorem star_pattern_and_others_fallback (domain : String) (defs : List GroupDefinition)
    (history : List HistoryEntry) (hd : ¬ '*' ∈ domain.data) :
    matchesPattern domain "*" = false
  ∧ (lookupKey (loadSettingsPure defs).categoryPatterns "Others").isSome = true
  ∧ "Others" ∈ (loadSettingsPure defs).categoryOrder
  ∧ (organizeHistory (loadSettingsPure defs) history).isSome = true := by
  refine ⟨?_, loadSettingsPure_others_pats defs, loadSettingsPure_others_order defs,
    organizeHistory_loadSettings_isSome defs history⟩
  rw [show matchesPattern domain "*" = strIncludes domain.data ['*'] from rfl]
  exact strIncludes_singleton_false domain.data '*' hd

/-- Witness for C10 at a concrete hostname and empty settings/history. -/

theorem star_pattern_and_others_fallback_witness :
    matchesPattern "example.com" "*" = false
  ∧ (lookupKey (loadSettingsPure []).categoryPatterns "Others").isSome = true
  ∧ "Others" ∈ (loadSettingsPure []).categoryOrder
  ∧ (organizeHistory (loadSettingsPure []) []).isSome = true :=
  star_pattern_and_others_fallback "example.com" [] [] (by decide)

/-- C8: `loadHistory` never lets an exception escape: a rejected or throwing
history query is caught, leaving the empty fresh-cycle groups and the
`showError` message, while a successful query (over loaded settings) produces
an organize result with no error signalled. -/

theorem load_history_error_boundary (defs : List GroupDefinition) (e : String)
    (h : List HistoryEntry) :
    (loadHistoryModel (loadSettingsPure defs) (Except.error e)).groups = []
  ∧ (loadHistoryModel (loadSettingsPure defs) (Except.error e)).errorMessage
      = some "Failed to load history. Please check permissions."
  ∧ (loadHistoryModel (loadSettingsPure defs) (Except.ok h)).errorMessage = none := by
  refine ⟨rfl, rfl, ?_⟩
  rcases Option.isSome_iff_exists.mp (organizeHistory_loadSettings_isSome defs h)
    with ⟨gs, hgs⟩
  simp [loadHistoryModel, loadHistoryBody, hgs, Bind.bind, Except.bind, pure, Except.pure]

theorem orderLe_total (a b : GroupDefinition) : orderLe a b = true ∨ orderLe b a = true := by
  simp only [orderLe, decide_eq_true_eq]
  exact Int.le_total a.order b.order

theorem orderLe_trans (a b c : GroupDefinition) (h1 : orderLe a b = true)
    (h2 : orderLe b c = true) : orderLe a c = true := by
  simp only [orderLe, decide_eq_true_eq] at *
  omega

theorem mapSet_eq_append {α : Type} (gs : List (String × α)) (k : String) (v : α)
    (h : lookupKey gs k = none) : mapSet gs k v = gs ++ [(k, v)] := by
  induction gs with
  | nil => simp [mapSet]
  | cons p rest ih =>
    by_cases hp : p.1 = k
    · simp [lookupKey, hp] at h
    · rw [show lookupKey (p :: rest) k = lookupKey rest k from by simp [lookupKey, hp]] at h
      simp [mapSet, hp, ih h]

theorem lookupKey_append_left_none {α : Type} (l1 l2 : List (String × α)) (k : String)
    (h : lookupKey l1 k = none) : lookupKey (l1 ++ l2) k = lookupKey l2 k := by
  induction l1 with
  | nil => simp
  | cons p rest ih =>
    by_cases hp : p.1 = k
    · simp [lookupKey, hp] at h
    · rw [show lookupKey (p :: rest) k = lookupKey rest k from by simp [lookupKey, hp]] at h
      rw [show (p :: rest) ++ l2 = p :: (rest ++ l2) from rfl]
      rw [show lookupKey (p :: (rest ++ l2)) k = lookupKey (rest ++ l2) k from by
        simp [lookupKey, hp]]
      exact ih h

theorem buildMap_eq_of_nodup {β α : Type} (kf : β → String) (vf : β → α) (L : List β)
    (acc : List (String × α)) (hnd : (L.map kf).Nodup)
    (hdisj : ∀ b ∈ L, lookupKey acc (kf b) = none) :
    buildMap kf vf acc L = acc ++ L.map (fun b => (kf b, vf b)) := by
  induction L generalizing acc with
  | nil => simp [buildMap]
  | cons b rest ih =>
    rw [show buildMap kf vf acc (b :: rest)
        = buildMap kf vf (mapSet acc (kf b) (vf b)) rest from rfl]
    have hb : lookupKey acc (kf b) = none := hdisj b (List.mem_cons_self b rest)
    rw [mapSet_eq_append acc (kf b) (vf b) hb]
    rw [List.map_cons] at hnd
    rcases List.nodup_cons.mp hnd with ⟨hbn, hnd'⟩
    rw [ih (acc ++ [(kf b, vf b)]) hnd' ?_]
    · simp
    · intro b' hb'
      have hne : ¬ (kf b = kf b') := fun he => hbn (he ▸ List.mem_map_of_mem kf hb')
      rw [lookupKey_append_left_none acc [(kf b, vf b)] (kf b')
        (hdisj b' (List.mem_cons_of_mem _ hb'))]
      simp [lookupKey, hne]

theorem classifyDomain_append (A B : List (String × List String)) (d n : String)
    (h : classifyDomain A d = some n) : classifyDomain (A ++ B) d = some n := by
  induction A with
  | nil => simp [classifyDomain] at h
  | cons c rest ih =>
    by_cases hc : c.2.any (fun p => matchesPattern d p) = true
    · rw [show classifyDomain (c :: rest) d = some c.1 from by simp [classifyDomain, hc]] at h
      rw [show (c :: rest) ++ B = c :: (rest ++ B) from rfl]
      rw [show classifyDomain (c :: (rest ++ B)) d = some c.1 from by
        simp [classifyDomain, hc]]
      exact h
    · rw [show classifyDomain (c :: rest) d = classifyDomain rest d from by
        simp [classifyDomain, hc]] at h
      rw [show (c :: rest) ++ B = c :: (rest ++ B) from rfl]
      rw [show classifyDomain (c :: (rest ++ B)) d = classifyDomain (rest ++ B) d from by
        simp [classifyDomain, hc]]
      exact ih h

theorem classifyDomain_map_min (domain : String) (L : List GroupDefinition)
    (g : GroupDefinition) (hs : L.Pairwise (fun a b => orderLe a b = true)) (hg : g ∈ L)
    (hm : g.patterns.any (fun p => matchesPattern domain p) = true)
    (hmin : ∀ x ∈ L, x.patterns.any (fun p => matchesPattern domain p) = true →
      x ≠ g → g.order < x.order) :
    classifyDomain (L.map (fun d => (d.name, d.patterns))) domain = some g.name := by
  induction L with
  | nil => simp at hg
  | cons x rest ih =>
    rcases List.pairwise_cons.mp hs with ⟨hx_rest, hs'⟩
    rw [List.map_cons]
    by_cases hx : x.patterns.any (fun p => matchesPattern domain p) = true
    · rw [show classifyDomain ((x.name, x.patterns) :: rest.map (fun d => (d.name, d.patterns)))
          domain = some x.name from by simp [classifyDomain, hx]]
      by_cases hxg : x = g
      · rw [hxg]
      · have hlt : g.order < x.order := hmin x (List.mem_cons_self x rest) hx hxg
        have hgrest : g ∈ rest := by
          rcases List.mem_cons.mp hg with h1 | h1
          · exact absurd h1.symm hxg
          · exact h1
        have hle : orderLe x g = true := hx_rest g hgrest
        simp only [orderLe, decide_eq_true_eq] at hle
        omega
    · have hxg : x ≠ g := fun he => hx (he ▸ hm)
      have hgrest : g ∈ rest := by
        rcases List.mem_cons.mp hg with h1 | h1
        · exact absurd h1.symm hxg
        · exact h1
      rw [show classifyDomain ((x.name, x.patterns)
            :: rest.map (fun d => (d.name, d.patterns))) domain
          = classifyDomain (rest.map (fun d => (d.name, d.patterns))) domain from by
        simp [classifyDomain, hx]]
      exact ih hs' hgrest
        (fun y hy hym hyg => hmin y (List.mem_cons_of_mem _ hy) hym hyg)

theorem jsObjectEntries_eq_self {α : Type} (obj : List (String × α))
    (h : ∀ p ∈ obj, isArrayIndexName p.1 = false) : jsObjectEntries obj = obj := by
  unfold jsObjectEntries
  have h1 : obj.filter (fun p => isArrayIndexName p.1) = [] := by
    rw [List.filter_eq_nil_iff]
    intro p hp
    simp [h p hp]
  have h2 : obj.filter (fun p => !(isArrayIndexName p.1)) = obj := by
    rw [List.filter_eq_self]
    intro p hp
    simp [h p hp]
  rw [h1, h2]
  simp [sortBy]

theorem buildMap_keys_prop {β α : Type} (P : String → Prop) (kf : β → String) (vf : β → α)
    (L : List β) (acc : List (String × α)) (hL : ∀ b ∈ L, P (kf b))
    (hacc : ∀ p ∈ acc, P p.1) : ∀ p ∈ buildMap kf vf acc L, P p.1 := by
  induction L generalizing acc with
  | nil => simpa [buildMap] using hacc
  | cons b rest ih =>
    rw [show buildMap kf vf acc (b :: rest)
        = buildMap kf vf (mapSet acc (kf b) (vf b)) rest from rfl]
    refine ih (mapSet acc (kf b) (vf b)) (fun b' hb' => hL b' (List.mem_cons_of_mem _ hb')) ?_
    intro p hp
    rcases mem_mapSet _ _ _ p hp with h1 | h1
    · rw [h1]
      exact hL b (List.mem_cons_self b rest)
    · exact hacc p h1

theorem loadSettingsPure_nonindex (defs : List GroupDefinition)
    (hnonum : ∀ x ∈ defs, x.enabled = true → isArrayIndexName x.name = false) :
    ∀ p ∈ (loadSettingsPure defs).categoryPatterns, isArrayIndexName p.1 = false := by
  have hS : ∀ b ∈ enabledSorted defs, isArrayIndexName b.name = false := by
    intro b hb
    have hb' := List.mem_filter.mp ((sortBy_perm orderLe _).mem_iff.mp hb)
    exact hnonum b hb'.1 (by simpa using hb'.2)
  have hbuild := buildMap_keys_prop (fun s => isArrayIndexName s = false)
    (fun g => g.name) (fun g => g.patterns) (enabledSorted defs) [] hS (by simp)
  unfold loadSettingsPure
  by_cases ho : (lookupKey (buildMap (fun g => g.name) (fun g => g.patterns) []
      (enabledSorted defs)) "Others").isSome = true
  · simp only [ho, if_pos]
    exact hbuild
  · simp only [ho, if_neg, Bool.not_eq_true]
    intro p hp
    rcases List.mem_append.mp hp with h1 | h1
    · exact hbuild p h1
    · have hpo : p = ("Others", []) := by simpa using h1
      rw [hpo]
      decide

/-- C2 counterexample: the groups named `"Z"` (order 0, pattern `google`) and
`"7"` (order 1, pattern `mail`) both match `mail.google.com`, but because
`Object.entries` enumerates the array-index key `"7"` before `"Z"`, the
pattern loop resolves the domain to the higher-order group `"7"`, not the
lower-order `"Z"` the claim demands. -/
theorem pattern_first_match_counterexample :
    (["google"].any (fun p => matchesPattern "mail.google.com" p) = true)
  ∧ (["mail"].any (fun p => matchesPattern "mail.google.com" p) = true)
  ∧ classifyDomain (jsObjectEntries (loadSettingsPure
      [⟨"z", "Z", "Z", ["google"], true, 0⟩,
       ⟨"s", "7", "N", ["mail"], true, 1⟩]).categoryPatterns) "mail.google.com"
      = some "7" := by
  refine ⟨by decide, by decide, by decide⟩

/-- C2 amended: provided no enabled group bears a canonical-integer name
(`Object.entries` would enumerate such names first, in numeric order — the
counterexample), classification is first-match-wins in ascending declared
order: when an enabled group matches the domain and every other enabled
matching group has a strictly larger `order` (so in particular, of two
enabled groups whose patterns both match, it is the one with the lower
order), the pattern loop resolves the domain to exactly that group.  Group
names must be distinct, as `categoryPatterns` is keyed by name. -/
theorem pattern_first_match_wins (defs : List GroupDefinition) (domain : String)
    (g : GroupDefinition)
    (hnonum : ∀ x ∈ defs, x.enabled = true → isArrayIndexName x.name = false)
    (hnodup : ((defs.filter (fun d => d.enabled)).map (fun d => d.name)).Nodup)
    (hg : g ∈ defs) (hen : g.enabled = true)
    (hm : g.patterns.any (fun p => matchesPattern domain p) = true)
    (hmin : ∀ x ∈ defs, x.enabled = true →
      x.patterns.any (fun p => matchesPattern domain p) = true → x ≠ g →
      g.order < x.order) :
    classifyDomain (jsObjectEntries (loadSettingsPure defs).categoryPatterns) domain
      = some g.name := by
  rw [jsObjectEntries_eq_self _ (loadSettingsPure_nonindex defs hnonum)]
  have hsort : (enabledSorted defs).Pairwise (fun a b => orderLe a b = true) :=
    sortBy_pairwise orderLe orderLe_total orderLe_trans _
  have hperm := sortBy_perm orderLe (defs.filter (fun d => d.enabled))
  have hgS : g ∈ enabledSorted defs := by
    apply hperm.mem_iff.mpr
    exact List.mem_filter.mpr ⟨hg, by simp [hen]⟩
  have hminS : ∀ x ∈ enabledSorted defs,
      x.patterns.any (fun p => matchesPattern domain p) = true → x ≠ g →
      g.order < x.order := by
    intro x hx hxm hxg
    have hx' := List.mem_filter.mp (hperm.mem_iff.mp hx)
    exact hmin x hx'.1 (by simpa using hx'.2) hxm hxg
  have hndS : ((enabledSorted defs).map (fun d => d.name)).Nodup :=
    ((hperm.map (fun d => d.name)).nodup_iff).mpr hnodup
  have hbuild : buildMap (fun d => d.name) (fun d => d.patterns) [] (enabledSorted defs)
      = (enabledSorted defs).map (fun d => (d.name, d.patterns)) := by
    rw [buildMap_eq_of_nodup _ _ _ [] hndS (fun b _ => rfl)]
    simp
  have hmain : classifyDomain
      ((enabledSorted defs).map (fun d => (d.name, d.patterns))) domain = some g.name :=
    classifyDomain_map_min domain (enabledSorted defs) g hsort hgS hm hminS
  unfold loadSettingsPure
  by_cases ho : (lookupKey
      (buildMap (fun d => d.name) (fun d => d.patterns) [] (enabledSorted defs))
      "Others").isSome = true
  · simp only [ho, if_pos]
    rw [hbuild]
    exact hmain
  · simp only [ho, if_neg, Bool.not_eq_true]
    rw [hbuild]
    exact classifyDomain_append _ _ domain g.name hmain

/-- Witness for the amended C2: two enabled groups with non-numeric names
whose patterns both match `mail.google.com`; the lower-order group wins. -/
theorem pattern_first_match_wins_witness :
    classifyDomain (jsObjectEntries (loadSettingsPure
      [⟨"a", "Mail", "M", ["google"], true, 0⟩,
       ⟨"b", "Video", "V", ["mail"], true, 1⟩]).categoryPatterns)
      "mail.google.com" = some "Mail" :=
  pattern_first_match_wins _ "mail.google.com" ⟨"a", "Mail", "M", ["google"], true, 0⟩
    (by decide) (by decide) (by decide) (by decide) (by decide) (by decide)

theorem countDescLe_total (a b : String × Nat) :
    countDescLe a b = true ∨ countDescLe b a = true := by
  simp only [countDescLe, decide_eq_true_eq]
  omega

theorem countDescLe_trans (a b c : String × Nat) (h1 : countDescLe a b = true)
    (h2 : countDescLe b c = true) : countDescLe a c = true := by
  simp only [countDescLe, decide_eq_true_eq] at *
  omega

/-- C5: the persisted frequency payload holds at most 50 records, each with
count at least 3 and at least as large as every record it displaced (the
remainder of the descending-sorted filtered list), and the persisted
top-visited list is capped at 30 entries. -/

theorem bounded_persistence (freq : List (String × Nat)) (tops : List String) :
    (optimizeFrequencyData freq).length ≤ 50
  ∧ (optimizeFrequencyData freq).all (fun p => decide (3 ≤ p.2)) = true
  ∧ (optimizeFrequencyData freq).all (fun p =>
      ((sortBy countDescLe (freq.filter (fun q => decide (3 ≤ q.2)))).drop 50).all
        (fun q => decide (q.2 ≤ p.2))) = true
  ∧ (savedTopVisited tops).length ≤ 30 := by
  refine ⟨List.length_take_le 50 _, ?_, ?_, List.length_take_le 30 _⟩
  · rw [List.all_eq_true]
    intro p hp
    have hp1 : p ∈ sortBy countDescLe (freq.filter (fun q => decide (3 ≤ q.2))) :=
      List.mem_of_mem_take hp
    have hp2 : p ∈ freq.filter (fun q => decide (3 ≤ q.2)) :=
      (sortBy_perm countDescLe _).mem_iff.mp hp1
    exact (List.mem_filter.mp hp2).2
  · rw [List.all_eq_true]
    intro p hp
    rw [List.all_eq_true]
    intro q hq
    have hP := sortBy_pairwise countDescLe countDescLe_total countDescLe_trans
      (freq.filter (fun q => decide (3 ≤ q.2)))
    rw [← List.take_append_drop 50
      (sortBy countDescLe (freq.filter (fun q => decide (3 ≤ q.2))))] at hP
    have := (List.pairwise_append.mp hP).2.2 p hp q hq
    simpa [countDescLe] using this

theorem sumVisits_cons (e : HistoryEntry) (rest : List HistoryEntry) (url : String) :
    sumVisits (e :: rest) url
      = (if e.url = url then jsVisits e else 0) + sumVisits rest url := by
  by_cases h : e.url = url
  · simp [sumVisits, List.filter, h]
  · simp [sumVisits, List.filter, h]

theorem aggAux_getD (hist : List HistoryEntry) (acc : List (String × Nat)) (url : String) :
    (lookupKey (aggAux acc hist) url).getD 0
      = (lookupKey acc url).getD 0 + sumVisits hist url := by
  induction hist generalizing acc with
  | nil => simp [aggAux, sumVisits]
  | cons e rest ih =>
    rw [show aggAux acc (e :: rest)
        = aggAux (mapSet acc e.url ((lookupKey acc e.url).getD 0 + jsVisits e)) rest from rfl]
    rw [ih]
    rw [sumVisits_cons]
    by_cases hu : url = e.url
    · subst hu
      rw [lookupKey_mapSet_self]
      simp
      omega
    · rw [lookupKey_mapSet_ne acc e.url url _ hu]
      have hne : ¬ (e.url = url) := fun h => hu h.symm
      rw [if_neg hne]
      omega

theorem aggAux_isSome (hist : List HistoryEntry) (acc : List (String × Nat)) (url : String) :
    (lookupKey (aggAux acc hist) url).isSome = true ↔
      (lookupKey acc url).isSome = true ∨ url ∈ hist.map (fun e => e.url) := by
  induction hist generalizing acc with
  | nil => simp [aggAux]
  | cons e rest ih =>
    rw [show aggAux acc (e :: rest)
        = aggAux (mapSet acc e.url ((lookupKey acc e.url).getD 0 + jsVisits e)) rest from rfl]
    rw [ih]
    rw [lookupKey_mapSet_isSome]
    simp [or_assoc, or_comm (a := url = e.url)]

/-- C4 amended: whenever the snapshot tracks at most 75 distinct URLs (so the
top-50 truncation inside `calculateVisitFrequency` does not fire), the
resulting frequency map sends every URL of the snapshot to the sum of
`visitCount || 1` over its entries (absent or zero counts contribute 1). -/

theorem recompute_sums_visit_counts (history : List HistoryEntry)
    (hle : (aggregateFreq history).length ≤ 75) (url : String)
    (hmem : url ∈ history.map (fun e => e.url)) :
    lookupKey (calculateVisitFrequency history).1 url = some (sumVisits history url) := by
  have hs : (sortBy countDescLe (aggregateFreq history)).length ≤ 75 := by
    rw [sortBy_length]
    exact hle
  have h1 : (calculateVisitFrequency history).1 = aggregateFreq history := by
    simp only [calculateVisitFrequency]
    rw [if_neg (by omega)]
  rw [h1]
  have hb2 : (lookupKey (aggAux [] history) url).isSome = true :=
    (aggAux_isSome history [] url).mpr (Or.inr hmem)
  have hb1 := aggAux_getD history [] url
  rw [show aggregateFreq history = aggAux [] history from rfl]
  rcases hl : lookupKey (aggAux [] history) url with _ | c
  · rw [hl] at hb2
    simp at hb2
  · rw [hl] at hb1
    simp [lookupKey] at hb1
    rw [hb1]

/-- C3 amended: whenever the snapshot tracks at most 75 distinct URLs, the
`topVisitedUrls` set computed by `calculateVisitFrequency` is exactly the
spec's description — the top `max(10, floor(0.2 * distinctUrlCount))` URLs by
count, descending, ties broken by original iteration order. -/

theorem top_visited_matches_spec (history : List HistoryEntry)
    (hle : (aggregateFreq history).length ≤ 75) :
    (calculateVisitFrequency history).2 = specTopVisited history := by
  have hs : (sortBy countDescLe (aggregateFreq history)).length ≤ 75 := by
    rw [sortBy_length]
    exact hle
  simp only [calculateVisitFrequency, specTopVisited]
  rw [if_neg (by omega)]
  rw [sortBy_length]

/-- C3 counterexample: with 76 distinct URLs the code first truncates the
sorted list to 50, then takes `max(10, floor(0.2 * 50)) = 10` URLs, while the
claimed formula demands `max(10, floor(0.2 * 76)) = 15`. -/

theorem top_visited_matches_spec_counterexample :
    (calculateVisitFrequency ex76).2 ≠ specTopVisited ex76
  ∧ (calculateVisitFrequency ex76).2.length = 10
  ∧ (specTopVisited ex76).length = 15 := by
  refine ⟨by decide, by decide, by decide⟩

/-- Witness for the amended C3 at the three-entry example snapshot. -/

theorem top_visited_matches_spec_witness :
    (calculateVisitFrequency exC4).2 = specTopVisited exC4 :=
  top_visited_matches_spec exC4 (by decide)

/-- C4 counterexample: with 76 distinct URLs the truncation drops URL `"75"`
(whose entries sum to 25) from the final frequency map entirely, so not every
URL is mapped to its sum; additionally an explicit `visitCount` of 0 is
counted as 1 (`visitCount || 1`), not 0. -/

theorem recompute_sums_counterexample :
    lookupKey (calculateVisitFrequency ex76).1 "75" = none
  ∧ sumVisits ex76 "75" = 25
  ∧ lookupKey (calculateVisitFrequency [{ url := "z", visitCount := some 0 }]).1 "z"
      = some 1 := by
  refine ⟨by decide, by decide, by decide⟩

/-- Witness for the amended C4 at the spec's example snapshot: the frequency
record is `{a: 8, b: 1}`. -/

theorem recompute_sums_visit_counts_witness :
    lookupKey (calculateVisitFrequency exC4).1 "a" = some (sumVisits exC4 "a")
  ∧ lookupKey (calculateVisitFrequency exC4).1 "b" = some (sumVisits exC4 "b")
  ∧ sumVisits exC4 "a" = 8 ∧ sumVisits exC4 "b" = 1 :=
  ⟨recompute_sums_visit_counts exC4 (by decide) "a" (by decide),
   recompute_sums_visit_counts exC4 (by decide) "b" (by decide),
   by decide, by decide⟩

theorem keyLe_refl (x : Nat × Nat × Nat) : keyLe x x := by
  unfold keyLe
  omega

theorem keyLe_total (x y : Nat × Nat × Nat) : keyLe x y ∨ keyLe y x := by
  unfold keyLe
  omega

theorem keyLe_trans (x y z : Nat × Nat × Nat) (h1 : keyLe x y) (h2 : keyLe y z) :
    keyLe x z := by
  unfold keyLe at *
  omega

theorem visitLe_iff (freq : List (String × Nat)) (top : List String) (a b : HistoryEntry) :
    visitLe freq top a b = true ↔ keyLe (sortKey freq top b) (sortKey freq top a) := by
  simp only [visitLe, visitCmp, sortKey, keyLe, decide_eq_true_eq]
  by_cases ha : setHas top a.url <;> by_cases hb : setHas top b.url <;>
      simp only [ha, hb] <;>
    by_cases hf : (lookupKey freq a.url).getD 0 = (lookupKey freq b.url).getD 0 <;>
      simp [hf] <;> omega

theorem visitLe_total (freq : List (String × Nat)) (top : List String) (a b : HistoryEntry) :
    visitLe freq top a b = true ∨ visitLe freq top b a = true := by
  rcases keyLe_total (sortKey freq top b) (sortKey freq top a) with h | h
  · exact Or.inl ((visitLe_iff freq top a b).mpr h)
  · exact Or.inr ((visitLe_iff freq top b a).mpr h)

theorem visitLe_trans (freq : List (String × Nat)) (top : List String)
    (a b c : HistoryEntry) (h1 : visitLe freq top a b = true)
    (h2 : visitLe freq top b c = true) : visitLe freq top a c = true :=
  (visitLe_iff freq top a c).mpr
    (keyLe_trans _ _ _ ((visitLe_iff freq top b c).mp h2) ((visitLe_iff freq top a b).mp h1))

/-- C6: frequency-mode sorting is a permutation ordered by the composite key —
top-visited membership first, then frequency count descending, then last
visit time descending — and it is stable: for every key value, the entries
holding that key appear in exactly their pre-sort relative order. -/

theorem frequency_sort_stable (freq : List (String × Nat)) (top : List String)
    (l : List HistoryEntry) :
    List.Perm (sortVisits freq top l) l
  ∧ (sortVisits freq top l).Pairwise
      (fun a b => keyLe (sortKey freq top b) (sortKey freq top a))
  ∧ ∀ k : Nat × Nat × Nat,
      (sortVisits freq top l).filter (fun e => decide (sortKey freq top e = k))
        = l.filter (fun e => decide (sortKey freq top e = k)) := by
  refine ⟨sortBy_perm _ l, ?_, ?_⟩
  · have hP := sortBy_pairwise (visitLe freq top) (visitLe_total freq top)
      (visitLe_trans freq top) l
    exact List.Pairwise.imp (fun hab => (visitLe_iff freq top _ _).mp hab) hP
  · intro k
    apply sortBy_filter_eq
    intro a b hpa hpb
    have ha := of_decide_eq_true hpa
    have hb := of_decide_eq_true hpb
    apply (visitLe_iff freq top a b).mpr
    rw [ha, hb]
    exact keyLe_refl k

/-- C7 counterexample: from a state satisfying the invariant where URL `"u"`
is a favorite holding the tag `"t"`, `toggleFavorite "u"` removes the
favorite but leaves the tag in place, breaking the tag-implies-favorite
invariant. -/

theorem tag_invariant_counterexample :
    TagInv ⟨["u"], [("u", "t")]⟩
  ∧ ¬ TagInv (toggleFavorite ⟨["u"], [("u", "t")]⟩ "u") := by
  refine ⟨by decide, by decide⟩

theorem mem_setAdd (l : List String) (u x : String) (h : x ∈ l) : x ∈ setAdd l u := by
  unfold setAdd
  by_cases hs : setHas l u
  · simpa [hs] using h
  · simp only [hs]
    simp at hs ⊢
    exact Or.inl h

theorem self_mem_setAdd (l : List String) (u : String) : u ∈ setAdd l u := by
  unfold setAdd
  by_cases hs : setHas l u
  · simpa [hs] using (setHas_iff l u).mp hs
  · simp [hs]

/-- C7 amended: `saveTag`, `deleteTag` and `addToFavorites` always preserve
the tag-implies-favorite invariant, and `toggleFavorite` preserves it exactly
when the toggled URL holds no custom tag or is not currently a favorite; the
remaining case (favorited URL with a tag) is the counterexample. -/

theorem tag_operations_preserve_invariant (s : FavState) (url customName : String)
    (hinv : TagInv s) :
    TagInv (saveTag s url customName)
  ∧ TagInv (deleteTag s url)
  ∧ TagInv (addToFavorites s url customName)
  ∧ (lookupKey s.favoriteTags url = none ∨ ¬ url ∈ s.favorites →
      TagInv (toggleFavorite s url)) := by
  refine ⟨?_, ?_, ?_, ?_⟩
  · by_cases hc : customName = ""
    · rw [show saveTag s url customName
          = ⟨s.favorites, eraseKey s.favoriteTags url⟩ from by simp [saveTag, hc]]
      intro p hp
      exact hinv p (mem_eraseKey _ _ p hp)
    · by_cases hs : setHas s.favorites url
      · rw [show saveTag s url customName
            = ⟨s.favorites, mapSet s.favoriteTags url customName⟩ from by
          simp [saveTag, hc, hs]]
        intro p hp
        rcases mem_mapSet _ _ _ p hp with h1 | h1
        · rw [h1]
          exact (setHas_iff _ _).mp hs
        · exact hinv p h1
      · rw [show saveTag s url customName
            = ⟨s.favorites ++ [url], mapSet s.favoriteTags url customName⟩ from by
          simp [saveTag, hc, hs]]
        intro p hp
        rcases mem_mapSet _ _ _ p hp with h1 | h1
        · rw [h1]
          simp
        · exact List.mem_append_left _ (hinv p h1)
  · intro p hp
    exact hinv p (mem_eraseKey _ _ p hp)
  · by_cases hc : customName = ""
    · rw [show addToFavorites s url customName
          = ⟨setAdd s.favorites url, s.favoriteTags⟩ from by simp [addToFavorites, hc]]
      intro p hp
      exact mem_setAdd _ _ _ (hinv p hp)
    · rw [show addToFavorites s url customName
          = ⟨setAdd s.favorites url, mapSet s.favoriteTags url customName⟩ from by
        simp [addToFavorites, hc]]
      intro p hp
      rcases mem_mapSet _ _ _ p hp with h1 | h1
      · rw [h1]
        exact self_mem_setAdd _ _
      · exact mem_setAdd _ _ _ (hinv p h1)
  · intro hcond
    by_cases hs : setHas s.favorites url
    · rw [show toggleFavorite s url = ⟨s.favorites.erase url, s.favoriteTags⟩ from by
        simp [toggleFavorite, hs]]
      rcases hcond with hnone | hnotfav
      · intro p hp
        have hne : p.1 ≠ url := by
          intro he
          have hsome := lookupKey_isSome_of_mem s.favoriteTags p hp
          rw [he, hnone] at hsome
          simp at hsome
        exact (List.mem_erase_of_ne hne).mpr (hinv p hp)
      · exact absurd ((setHas_iff _ _).mp hs) hnotfav
    · rw [show toggleFavorite s url = ⟨s.favorites ++ [url], s.favoriteTags⟩ from by
        simp [toggleFavorite, hs]]
      intro p hp
      exact List.mem_append_left _ (hinv p hp)

/-- Witness for C7 at a concrete state; the toggle case is discharged with a
URL that holds no tag. -/

theorem tag_operations_preserve_invariant_witness :
    TagInv (saveTag ⟨["f"], [("f", "n")]⟩ "g" "tag")
  ∧ TagInv (deleteTag ⟨["f"], [("f", "n")]⟩ "g")
  ∧ TagInv (addToFavorites ⟨["f"], [("f", "n")]⟩ "g" "tag")
  ∧ TagInv (toggleFavorite ⟨["f"], [("f", "n")]⟩ "g") :=
  have h := tag_operations_preserve_invariant ⟨["f"], [("f", "n")]⟩ "g" "tag" (by decide)
  ⟨h.1, h.2.1, h.2.2.1, h.2.2.2 (by decide)⟩

end BrowserHistory
